import Mathlib

/-!
Shallow embedding of the bounded-cache code of this repository.

Sources embedded here:
* `src/benchmarks/caching-benchmarks.js`, lines 15-36: `class LRUCache`
  with `constructor(maxSize)`, `get(key)` (miss sentinel `null`, guarded
  by `Map.has`) and `set(key, value)`.
* `src/unnamed/part_006`, lines 84-108: the same class; its `get` is
  guarded by JavaScript truthiness of the looked-up item and returns
  `undefined` on a miss.  Its `constructor` and `set` are textually
  identical to the benchmarks variant, so they are shared below.
* `src/database-optimization/mongodb-examples/index.js`, lines 109-131:
  `getUserWithCache`, the repository's only time-to-live logic: a
  read-through cache over a `Map` storing `{ data, timestamp }` records
  with a fixed `CACHE_TTL` of 300000 milliseconds.

A JavaScript `Map` is modelled as an insertion-ordered association list
with unique keys: `Map.get`/`Map.has` look up the key, `Map.set` updates
an existing key in place (keeping its position in iteration order) or
appends a new key at the end, `Map.delete` removes the key, and
`map.keys().next().value` is the head key.  Keys are strings (all keys in
the source are template strings); stored values are modelled by `JSVal`,
which carries enough of JavaScript's value universe to express the
source's `null`/`undefined` sentinels and truthiness tests.
-/

/-- A JavaScript value, as far as the embedded code inspects one:
`undefined`, `null`, numbers, strings and booleans. -/
inductive JSVal where
  | undef : JSVal
  | null : JSVal
  | num (n : Int) : JSVal
  | str (s : String) : JSVal
  | bool (b : Bool) : JSVal
deriving DecidableEq, Repr

/-- JavaScript truthiness: `undefined`, `null`, `0`, `""` and `false`
are falsy, everything else modelled here is truthy. -/
def JSVal.truthy : JSVal → Bool
  | .undef => false
  | .null => false
  | .num n => n != 0
  | .str s => s != ""
  | .bool b => b

/-- `Map.prototype.has` on the underlying entry list. -/
def mapHas {α : Type} : List (String × α) → String → Bool
  | [], _ => false
  | e :: t, k => (e.1 == k) || mapHas t k

/-- `Map.prototype.get` on the underlying entry list (`none` models
`undefined` for an absent key). -/
def mapFind {α : Type} : List (String × α) → String → Option α
  | [], _ => none
  | e :: t, k => if e.1 == k then some e.2 else mapFind t k

/-- Value replacement for `Map.prototype.set` on a present key: the key
keeps its position in iteration order. -/
def mapReplace {α : Type} : List (String × α) → String → α → List (String × α)
  | [], _, _ => []
  | e :: t, k, v => if e.1 == k then (k, v) :: mapReplace t k v else e :: mapReplace t k v

/-- `Map.prototype.set`: update in place if the key is present, else
append at the most-recently-inserted end. -/
def mapSet {α : Type} (l : List (String × α)) (k : String) (v : α) : List (String × α) :=
  if mapHas l k then mapReplace l k v else l ++ [(k, v)]

/-- `Map.prototype.delete`. -/
def mapDelete {α : Type} : List (String × α) → String → List (String × α)
  | [], _ => []
  | e :: t, k => if e.1 == k then mapDelete t k else e :: mapDelete t k

/-- A JavaScript `Map`: its entries in insertion/iteration order. -/
structure JSMap (α : Type) where
  entries : List (String × α)
deriving DecidableEq, Repr

/-- `new Map()`. -/
def JSMap.empty {α : Type} : JSMap α := ⟨[]⟩

def JSMap.has {α : Type} (m : JSMap α) (k : String) : Bool :=
  mapHas m.entries k

def JSMap.find {α : Type} (m : JSMap α) (k : String) : Option α :=
  mapFind m.entries k

/-- `Map.prototype.get` at value type `JSVal`: an absent key reads as
`undefined`. -/
def JSMap.get (m : JSMap JSVal) (k : String) : JSVal :=
  match mapFind m.entries k with
  | some v => v
  | none => .undef

def JSMap.set {α : Type} (m : JSMap α) (k : String) (v : α) : JSMap α :=
  ⟨mapSet m.entries k v⟩

def JSMap.delete {α : Type} (m : JSMap α) (k : String) : JSMap α :=
  ⟨mapDelete m.entries k⟩

/-- `Map.prototype.size`. -/
def JSMap.size {α : Type} (m : JSMap α) : Nat :=
  m.entries.length

/-- The `LRUCache` class state: `this.maxSize` and `this.cache`. -/
structure LRUCache where
  maxSize : Int
  cache : JSMap JSVal
deriving DecidableEq, Repr

/-- `constructor(maxSize) { this.maxSize = maxSize; this.cache = new Map(); }`
(both variants; no validation of `maxSize`). -/
def mkLRUCache (maxSize : Int) : LRUCache :=
  ⟨maxSize, JSMap.empty⟩

/-- `get` of the benchmarks variant (`caching-benchmarks.js` lines 21-27):
miss sentinel `null`; on a hit the entry is deleted and re-inserted at the
most-recently-used end.  Returns the value together with the updated
cache state. -/
def LRUCache.get (c : LRUCache) (key : String) : JSVal × LRUCache :=
  if !(c.cache.has key) then (.null, c)
  else
    let value := c.cache.get key
    ((value), ⟨c.maxSize, (c.cache.delete key).set key value⟩)

/-- `get` of the `part_006` variant (lines 90-98): looks the item up,
refreshes it only when the item is truthy, and returns it (so a miss
reads as `undefined`). -/
def LRUCache.getDoc (c : LRUCache) (key : String) : JSVal × LRUCache :=
  let item := c.cache.get key
  if item.truthy then
    ((item), ⟨c.maxSize, (c.cache.delete key).set key item⟩)
  else ((item), c)

/-- `set` (identical in both variants, `caching-benchmarks.js` lines
29-35): when `this.cache.size >= this.maxSize`, delete the first key in
iteration order (`this.cache.keys().next().value`; a no-op on an empty
map), then `this.cache.set(key, value)`. -/
def LRUCache.set (c : LRUCache) (key : String) (value : JSVal) : LRUCache :=
  let m :=
    if (c.cache.size : Int) ≥ c.maxSize then
      match c.cache.entries.head? with
      | some e => c.cache.delete e.1
      | none => c.cache
    else c.cache
  ⟨c.maxSize, m.set key value⟩

/-- Observer from the spec: `size()` is the entry count. -/
def LRUCache.size (c : LRUCache) : Nat :=
  c.cache.size

/-- Observer from the spec: `containsKey(key)` is membership, no side
effect. -/
def LRUCache.containsKey (c : LRUCache) (k : String) : Bool :=
  c.cache.has k

/-- The value currently stored for a key, if any. -/
def LRUCache.valueOf (c : LRUCache) (k : String) : Option JSVal :=
  c.cache.find k

/-- The key at the most-recently-used end of the recency order (the last
key in `Map` iteration order). -/
def LRUCache.lastKey (c : LRUCache) : Option String :=
  c.cache.entries.getLast?.map Prod.fst

/-- The recency order of the cache, least-recently-used first. -/
def LRUCache.keyOrder (c : LRUCache) : List String :=
  c.cache.entries.map Prod.fst

/-- Fold a list of `set` calls over a cache. -/
def applySets (c : LRUCache) (ops : List (String × JSVal)) : LRUCache :=
  ops.foldl (fun c p => c.set p.1 p.2) c

/-- An operation on the cache: a `get` or a `set` (benchmarks variant). -/
inductive Op where
  | get (k : String) : Op
  | set (k : String) (v : JSVal) : Op
deriving DecidableEq, Repr

/-- Execute one operation for its state effect. -/
def step (c : LRUCache) : Op → LRUCache
  | .get k => (c.get k).2
  | .set k v => c.set k v

/-- Execute a list of operations, head first. -/
def run (c : LRUCache) (ops : List Op) : LRUCache :=
  ops.foldl step c

/-- The value of the last (most recent) `set` for a key in an operation
list, if any. -/
def lastSet : List Op → String → Option JSVal
  | [], _ => none
  | op :: t, k =>
    match lastSet t k with
    | some v => some v
    | none =>
      match op with
      | .set j v => if j == k then some v else none
      | .get _ => none

/-- An entry of the read-through cache of
`mongodb-examples/index.js`: `{ data, timestamp }`. -/
structure CacheRecord where
  data : JSVal
  timestamp : Int
deriving DecidableEq, Repr

/-- `const CACHE_TTL = 300000; // 5 minutes` (`mongodb-examples/index.js`
line 111). -/
def CACHE_TTL : Int := 300000

/-- `getUserWithCache(userId)` (`mongodb-examples/index.js` lines
113-131), made pure: `now` stands for `Date.now()` and `fetched` for the
value `await getUserWithPosts(userId)` would produce.  If the key is
cached and `Date.now() - timestamp < CACHE_TTL`, return the cached data;
otherwise delete any stale entry, fetch, cache `{ data, timestamp: now }`
and return the fetched data. -/
def getUserWithCache (cache : JSMap CacheRecord) (now : Int) (fetched : JSVal)
    (userId : String) : JSVal × JSMap CacheRecord :=
  let cacheKey := "user:" ++ userId
  match cache.find cacheKey with
  | some r =>
    if now - r.timestamp < CACHE_TTL then ((r.data), cache)
    else ((fetched), (cache.delete cacheKey).set cacheKey ⟨fetched, now⟩)
  | none => ((fetched), cache.set cacheKey ⟨fetched, now⟩)

/-- Modelled from the spec: construction per §4.1 — "Fails with
`InvalidConfiguration` if `capacity <= 0`."  The source constructors
perform no such check; this comparator exists only to state that
divergence. -/
def specConstruct (capacity : Int) : Except String LRUCache :=
  if capacity ≤ 0 then .error "InvalidConfiguration" else .ok (mkLRUCache capacity)

example : ((mkLRUCache 1).set "a" (.num 1)).containsKey "a" = true := by decide
example : (((mkLRUCache 1).set "a" (.num 1)).set "b" (.num 2)).containsKey "a" = false := by
  decide

/-- The map produced by the eviction step at the top of `set`: identical
to the `let m := ...` in `LRUCache.set` (definitional equality used in
proofs). -/
def evictIfFull (c : LRUCache) : JSMap JSVal :=
  if (c.cache.size : Int) ≥ c.maxSize then
    match c.cache.entries.head? with
    | some e => c.cache.delete e.1
    | none => c.cache
  else c.cache

/-! ### Lemmas about the `Map` model -/

theorem mapFind_replace_self {α : Type} (k : String) (v : α) :
    ∀ l : List (String × α), mapHas l k = true → mapFind (mapReplace l k v) k = some v := by
  intro l
  induction l with
  | nil => intro h; simp [mapHas] at h
  | cons e t ih =>
    intro h
    by_cases he : (e.1 == k) = true
    · simp [mapReplace, he, mapFind]
    · simp only [mapHas, Bool.or_eq_true] at h
      rcases h with h | h
      · exact absurd h he
      · simp [mapReplace, he, mapFind, ih h]

theorem mapFind_append_self {α : Type} (k : String) (v : α) :
    ∀ l : List (String × α), mapHas l k = false → mapFind (l ++ [(k, v)]) k = some v := by
  intro l
  induction l with
  | nil => intro _; simp [mapFind]
  | cons e t ih =>
    intro h
    simp only [mapHas, Bool.or_eq_false_iff] at h
    simp [mapFind, h.1, ih h.2]

theorem mapFind_set_self {α : Type} (k : String) (v : α) (l : List (String × α)) :
    mapFind (mapSet l k v) k = some v := by
  unfold mapSet
  by_cases h : mapHas l k = true
  · simp [h, mapFind_replace_self k v l h]
  · simp only [Bool.not_eq_true] at h
    simp [h, mapFind_append_self k v l h]

theorem mapFind_replace_other {α : Type} (k k' : String) (v : α) (hne : k' ≠ k) :
    ∀ l : List (String × α), mapFind (mapReplace l k v) k' = mapFind l k' := by
  intro l
  induction l with
  | nil => rfl
  | cons e t ih =>
    by_cases he : (e.1 == k) = true
    · have he' : e.1 = k := by simpa [beq_iff_eq] using he
      have hk : (k == k') = false := by simp [beq_iff_eq]; exact fun hh => hne hh.symm
      have hk2 : (e.1 == k') = false := by rw [he']; exact hk
      simp [mapReplace, he, mapFind, hk, hk2, ih]
    · simp [mapReplace, he, mapFind, ih]

theorem mapFind_append_other {α : Type} (k k' : String) (v : α) (hne : k' ≠ k) :
    ∀ l : List (String × α), mapFind (l ++ [(k, v)]) k' = mapFind l k' := by
  intro l
  induction l with
  | nil =>
    have hk : (k == k') = false := by simp [beq_iff_eq]; exact fun hh => hne hh.symm
    simp [mapFind, hk]
  | cons e t ih => by_cases he : (e.1 == k') = true <;> simp [mapFind, he, ih]

theorem mapFind_set_other {α : Type} (k k' : String) (v : α) (hne : k' ≠ k)
    (l : List (String × α)) : mapFind (mapSet l k v) k' = mapFind l k' := by
  unfold mapSet
  by_cases h : mapHas l k = true <;>
    simp [h, mapFind_replace_other k k' v hne l, mapFind_append_other k k' v hne l]

theorem mapFind_delete_self {α : Type} (k : String) :
    ∀ l : List (String × α), mapFind (mapDelete l k) k = none := by
  intro l
  induction l with
  | nil => rfl
  | cons e t ih =>
    by_cases he : (e.1 == k) = true
    · simp [mapDelete, he, ih]
    · simp [mapDelete, he, mapFind, ih]

theorem mapFind_delete_other {α : Type} (k k' : String) (hne : k' ≠ k) :
    ∀ l : List (String × α), mapFind (mapDelete l k) k' = mapFind l k' := by
  intro l
  induction l with
  | nil => rfl
  | cons e t ih =>
    by_cases he : (e.1 == k) = true
    · have he' : e.1 = k := by simpa [beq_iff_eq] using he
      have hk2 : (e.1 == k') = false := by
        rw [he']; simp [beq_iff_eq]; exact fun hh => hne hh.symm
      simp [mapDelete, he, mapFind, hk2, ih]
    · simp [mapDelete, he, mapFind, ih]

theorem mapHas_eq_isSome {α : Type} (k : String) :
    ∀ l : List (String × α), mapHas l k = (mapFind l k).isSome := by
  intro l
  induction l with
  | nil => rfl
  | cons e t ih => by_cases he : (e.1 == k) = true <;> simp [mapHas, mapFind, he, ih]

theorem length_mapReplace {α : Type} (k : String) (v : α) :
    ∀ l : List (String × α), (mapReplace l k v).length = l.length := by
  intro l
  induction l with
  | nil => rfl
  | cons e t ih => by_cases he : (e.1 == k) = true <;> simp [mapReplace, he, ih]

theorem length_mapSet_le {α : Type} (k : String) (v : α) (l : List (String × α)) :
    (mapSet l k v).length ≤ l.length + 1 := by
  unfold mapSet
  by_cases h : mapHas l k = true <;> simp [h, length_mapReplace]

theorem length_mapDelete_le {α : Type} (k : String) :
    ∀ l : List (String × α), (mapDelete l k).length ≤ l.length := by
  intro l
  induction l with
  | nil => simp [mapDelete]
  | cons e t ih =>
    by_cases he : (e.1 == k) = true
    · simp [mapDelete, he]; omega
    · simp [mapDelete, he]; omega

theorem keys_mapReplace {α : Type} (k : String) (v : α) :
    ∀ l : List (String × α), (mapReplace l k v).map Prod.fst = l.map Prod.fst := by
  intro l
  induction l with
  | nil => rfl
  | cons e t ih =>
    by_cases he : (e.1 == k) = true
    · have he' : e.1 = k := by simpa [beq_iff_eq] using he
      simp [mapReplace, he, ih, he']
    · simp [mapReplace, he, ih]

theorem mapHas_mapReplace {α : Type} (k k' : String) (v : α) :
    ∀ l : List (String × α), mapHas (mapReplace l k v) k' = mapHas l k' := by
  intro l
  induction l with
  | nil => rfl
  | cons e t ih =>
    by_cases he : (e.1 == k) = true
    · have he' : e.1 = k := by simpa [beq_iff_eq] using he
      simp [mapReplace, he, mapHas, ih, he']
    · simp [mapReplace, he, mapHas, ih]

theorem mapHas_mapDelete_self {α : Type} (k : String) (l : List (String × α)) :
    mapHas (mapDelete l k) k = false := by
  rw [mapHas_eq_isSome, mapFind_delete_self]
  rfl

theorem mapHas_mapDelete_of_not {α : Type} (k j : String) (l : List (String × α))
    (h : mapHas l k = false) : mapHas (mapDelete l j) k = false := by
  by_cases hkj : k = j
  · subst hkj; exact mapHas_mapDelete_self k l
  · rw [mapHas_eq_isSome, mapFind_delete_other j k hkj, ← mapHas_eq_isSome]
    exact h

theorem getLast?_append_single {β : Type} (x : β) :
    ∀ l : List β, (l ++ [x]).getLast? = some x := by
  intro l
  induction l with
  | nil => rfl
  | cons e t ih =>
    cases t with
    | nil => rfl
    | cons f t' =>
      rw [List.cons_append, List.cons_append, List.getLast?_cons_cons, ← List.cons_append]
      exact ih


/-! ### Lemmas about the `LRUCache` operations -/

theorem set_def (c : LRUCache) (k : String) (v : JSVal) :
    c.set k v = ⟨c.maxSize, (evictIfFull c).set k v⟩ := rfl

theorem evictIfFull_of_lt (c : LRUCache) (h : ¬ (c.cache.size : Int) ≥ c.maxSize) :
    evictIfFull c = c.cache := by
  unfold evictIfFull
  rw [if_neg h]

theorem evictIfFull_of_ge (c : LRUCache) (e : String × JSVal)
    (hge : (c.cache.size : Int) ≥ c.maxSize) (hh : c.cache.entries.head? = some e) :
    evictIfFull c = c.cache.delete e.1 := by
  unfold evictIfFull
  rw [if_pos hge, hh]

theorem evictIfFull_cases (c : LRUCache) :
    evictIfFull c = c.cache ∨
      ∃ e, c.cache.entries.head? = some e ∧ evictIfFull c = c.cache.delete e.1 := by
  by_cases hge : (c.cache.size : Int) ≥ c.maxSize
  · cases hh : c.cache.entries.head? with
    | none =>
      left
      unfold evictIfFull
      rw [if_pos hge, hh]
    | some e => exact Or.inr ⟨e, rfl, evictIfFull_of_ge c e hge hh⟩
  · exact Or.inl (evictIfFull_of_lt c hge)

theorem valueOf_set_self (c : LRUCache) (k : String) (v : JSVal) :
    (c.set k v).valueOf k = some v :=
  mapFind_set_self k v _

theorem valueOf_set_other (c : LRUCache) (k k' : String) (v : JSVal) (hne : k' ≠ k) :
    (c.set k v).valueOf k' = c.valueOf k' ∨ (c.set k v).valueOf k' = none := by
  rw [set_def]
  rcases evictIfFull_cases c with h | ⟨e, _, h⟩
  · left
    rw [h]
    exact mapFind_set_other k k' v hne _
  · by_cases hek : e.1 = k'
    · right
      show mapFind (mapSet (evictIfFull c).entries k v) k' = none
      rw [h]
      show mapFind (mapSet (mapDelete c.cache.entries e.1) k v) k' = none
      rw [mapFind_set_other k k' v hne, hek, mapFind_delete_self]
    · left
      show mapFind (mapSet (evictIfFull c).entries k v) k' = mapFind c.cache.entries k'
      rw [h]
      show mapFind (mapSet (mapDelete c.cache.entries e.1) k v) k' = mapFind c.cache.entries k'
      rw [mapFind_set_other k k' v hne, mapFind_delete_other e.1 k' (Ne.symm hek)]

theorem find_of_has (m : JSMap JSVal) (k : String) (h : m.has k = true) :
    ∃ w, m.find k = some w := by
  have h2 : (mapFind m.entries k).isSome = true := by
    rw [← mapHas_eq_isSome]
    exact h
  exact Option.isSome_iff_exists.mp h2

theorem has_of_find (m : JSMap JSVal) (k : String) (w : JSVal) (h : m.find k = some w) :
    m.has k = true := by
  show mapHas m.entries k = true
  rw [mapHas_eq_isSome]
  have h' : mapFind m.entries k = some w := h
  rw [h']
  rfl

theorem jsget_of_find (m : JSMap JSVal) (k : String) (w : JSVal) (h : m.find k = some w) :
    m.get k = w := by
  have h' : mapFind m.entries k = some w := h
  unfold JSMap.get
  rw [h']

theorem jsget_of_not_has (m : JSMap JSVal) (k : String) (h : m.has k = false) :
    m.get k = .undef := by
  have h2 : mapFind m.entries k = none := by
    have := mapHas_eq_isSome k m.entries
    have h' : mapHas m.entries k = false := h
    rw [h'] at this
    cases hf : mapFind m.entries k with
    | none => rfl
    | some w => rw [hf] at this; simp at this
  unfold JSMap.get
  rw [h2]

theorem get_of_find (c : LRUCache) (k : String) (w : JSVal) (h : c.cache.find k = some w) :
    c.get k = (w, ⟨c.maxSize, (c.cache.delete k).set k w⟩) := by
  have hhas : c.cache.has k = true := has_of_find c.cache k w h
  unfold LRUCache.get
  rw [hhas, jsget_of_find c.cache k w h]
  rfl

theorem get_of_not_has (c : LRUCache) (k : String) (h : c.cache.has k = false) :
    c.get k = (.null, c) := by
  unfold LRUCache.get
  rw [h]
  rfl

theorem valueOf_get_state (c : LRUCache) (k' k : String) :
    ((c.get k').2).valueOf k = c.valueOf k := by
  by_cases hhas : c.cache.has k' = true
  · obtain ⟨w, hw⟩ := find_of_has c.cache k' hhas
    rw [get_of_find c k' w hw]
    show mapFind (mapSet (mapDelete c.cache.entries k') k' w) k = mapFind c.cache.entries k
    by_cases hk : k = k'
    · subst hk
      rw [mapFind_set_self]
      exact (hw : mapFind c.cache.entries k = some w).symm
    · rw [mapFind_set_other k' k w hk, mapFind_delete_other k' k hk]
  · rw [get_of_not_has c k' (by simpa using hhas)]

theorem maxSize_set (c : LRUCache) (k : String) (v : JSVal) :
    (c.set k v).maxSize = c.maxSize := rfl

theorem size_set_le (c : LRUCache) (k : String) (v : JSVal)
    (hpos : 0 < c.maxSize) (hle : (c.size : Int) ≤ c.maxSize) :
    ((c.set k v).size : Int) ≤ c.maxSize := by
  rw [set_def]
  show ((mapSet (evictIfFull c).entries k v).length : Int) ≤ c.maxSize
  have hb := length_mapSet_le k v (evictIfFull c).entries
  by_cases hge : (c.cache.size : Int) ≥ c.maxSize
  · have hsz : (c.cache.entries.length : Int) = c.maxSize := le_antisymm hle hge
    have hpos' : 0 < c.cache.entries.length := by omega
    cases hentries : c.cache.entries with
    | nil => rw [hentries] at hpos'; simp at hpos'
    | cons e t =>
      have hev : evictIfFull c = c.cache.delete e.1 :=
        evictIfFull_of_ge c e hge (by rw [hentries]; rfl)
      have hdel : (c.cache.delete e.1).entries = mapDelete c.cache.entries e.1 := rfl
      have hlen : (mapDelete c.cache.entries e.1).length ≤ t.length := by
        rw [hentries]
        show (mapDelete (e :: t) e.1).length ≤ t.length
        have hstep : mapDelete (e :: t) e.1 = mapDelete t e.1 := by simp [mapDelete]
        rw [hstep]
        exact length_mapDelete_le e.1 t
      rw [hev, hdel] at hb
      have hT : t.length + 1 = c.cache.entries.length := by rw [hentries]; rfl
      rw [hev, hdel]
      omega
  · have hlt : (c.cache.entries.length : Int) < c.maxSize := lt_of_not_ge hge
    rw [evictIfFull_of_lt c hge] at hb ⊢
    omega

theorem applySets_size (ops : List (String × JSVal)) :
    ∀ c : LRUCache, 0 < c.maxSize → (c.size : Int) ≤ c.maxSize →
      ((applySets c ops).size : Int) ≤ c.maxSize := by
  induction ops with
  | nil => intro c _ h1; exact h1
  | cons p t ih =>
    intro c h0 h1
    have hstep : applySets c (p :: t) = applySets (c.set p.1 p.2) t := rfl
    rw [hstep]
    exact ih (c.set p.1 p.2) h0 (size_set_le c p.1 p.2 h0 h1)

theorem getLast_mapSet_new {α : Type} (l : List (String × α)) (k : String) (v : α)
    (h : mapHas l k = false) : (mapSet l k v).getLast?.map Prod.fst = some k := by
  have hset : mapSet l k v = l ++ [(k, v)] := by simp [mapSet, h]
  rw [hset, getLast?_append_single]
  rfl

theorem lastKey_get_of_has (c : LRUCache) (k : String) (h : c.cache.has k = true) :
    ((c.get k).2).lastKey = some k := by
  obtain ⟨w, hw⟩ := find_of_has c.cache k h
  rw [get_of_find c k w hw]
  show (mapSet (mapDelete c.cache.entries k) k w).getLast?.map Prod.fst = some k
  exact getLast_mapSet_new _ k w (mapHas_mapDelete_self k c.cache.entries)

theorem has_evictIfFull_of_not (c : LRUCache) (k : String) (h : c.cache.has k = false) :
    mapHas (evictIfFull c).entries k = false := by
  rcases evictIfFull_cases c with he | ⟨e, _, he⟩
  · rw [he]; exact h
  · rw [he]
    exact mapHas_mapDelete_of_not k e.1 c.cache.entries h

theorem lastKey_set_of_not_has (c : LRUCache) (k : String) (v : JSVal)
    (h : c.cache.has k = false) : (c.set k v).lastKey = some k := by
  rw [set_def]
  show (mapSet (evictIfFull c).entries k v).getLast?.map Prod.fst = some k
  exact getLast_mapSet_new _ k v (has_evictIfFull_of_not c k h)

theorem getDoc_of_truthy (c : LRUCache) (k : String) (h : (c.cache.get k).truthy = true) :
    c.getDoc k = (c.cache.get k, ⟨c.maxSize, (c.cache.delete k).set k (c.cache.get k)⟩) := by
  unfold LRUCache.getDoc
  rw [if_pos h]

theorem getDoc_of_falsy (c : LRUCache) (k : String) (h : (c.cache.get k).truthy = false) :
    c.getDoc k = (c.cache.get k, c) := by
  unfold LRUCache.getDoc
  rw [if_neg (by simp [h] : ¬ (c.cache.get k).truthy = true)]

theorem lastKey_getDoc_of_truthy (c : LRUCache) (k : String)
    (h : (c.cache.get k).truthy = true) : ((c.getDoc k).2).lastKey = some k := by
  rw [getDoc_of_truthy c k h]
  show (mapSet (mapDelete c.cache.entries k) k (c.cache.get k)).getLast?.map Prod.fst = some k
  exact getLast_mapSet_new _ k _ (mapHas_mapDelete_self k c.cache.entries)

theorem size_set_of_has_lt (c : LRUCache) (k : String) (v : JSVal)
    (hhas : c.cache.has k = true) (hlt : ¬ (c.cache.size : Int) ≥ c.maxSize) :
    (c.set k v).size = c.size := by
  rw [set_def]
  show (mapSet (evictIfFull c).entries k v).length = c.cache.entries.length
  rw [evictIfFull_of_lt c hlt]
  have hhas' : mapHas c.cache.entries k = true := hhas
  have hset : mapSet c.cache.entries k v = mapReplace c.cache.entries k v := by
    unfold mapSet
    rw [if_pos hhas']
  rw [hset, length_mapReplace]

theorem containsKey_set_of_lt (c : LRUCache) (k k' : String) (v : JSVal)
    (hhas : c.cache.has k = true) (hlt : ¬ (c.cache.size : Int) ≥ c.maxSize)
    (h : c.containsKey k' = true) : (c.set k v).containsKey k' = true := by
  rw [set_def]
  show mapHas (mapSet (evictIfFull c).entries k v) k' = true
  rw [evictIfFull_of_lt c hlt]
  have hhas' : mapHas c.cache.entries k = true := hhas
  have hset : mapSet c.cache.entries k v = mapReplace c.cache.entries k v := by
    unfold mapSet
    rw [if_pos hhas']
  rw [hset, mapHas_mapReplace]
  exact h

theorem keyOrder_set_of_has_lt (c : LRUCache) (k : String) (v : JSVal)
    (hhas : c.cache.has k = true) (hlt : ¬ (c.cache.size : Int) ≥ c.maxSize) :
    (c.set k v).keyOrder = c.keyOrder := by
  rw [set_def]
  show (mapSet (evictIfFull c).entries k v).map Prod.fst = c.cache.entries.map Prod.fst
  rw [evictIfFull_of_lt c hlt]
  have hhas' : mapHas c.cache.entries k = true := hhas
  have hset : mapSet c.cache.entries k v = mapReplace c.cache.entries k v := by
    unfold mapSet
    rw [if_pos hhas']
  rw [hset, keys_mapReplace]

theorem get_fst_of_find (c : LRUCache) (k : String) (w : JSVal)
    (h : c.cache.find k = some w) : (c.get k).1 = w := by
  rw [get_of_find c k w h]

theorem get_fst_set (c : LRUCache) (k : String) (v : JSVal) :
    ((c.set k v).get k).1 = v :=
  get_fst_of_find (c.set k v) k v (valueOf_set_self c k v)

/-! ### Lemmas about operation sequences -/

theorem run_cons (c : LRUCache) (op : Op) (t : List Op) :
    run c (op :: t) = run (step c op) t := rfl

theorem lastSet_cons (op : Op) (t : List Op) (k : String) :
    lastSet (op :: t) k =
      match lastSet t k with
      | some v => some v
      | none =>
        match op with
        | .set j v => if j == k then some v else none
        | .get _ => none := rfl

theorem lastSet_cons_some (op : Op) (t : List Op) (k : String) (w : JSVal)
    (h : lastSet t k = some w) : lastSet (op :: t) k = some w := by
  rw [lastSet_cons, h]

theorem lastSet_cons_get (k' : String) (t : List Op) (k : String)
    (h : lastSet t k = none) : lastSet (Op.get k' :: t) k = none := by
  rw [lastSet_cons, h]

theorem lastSet_cons_set_self (t : List Op) (k : String) (v : JSVal)
    (h : lastSet t k = none) : lastSet (Op.set k v :: t) k = some v := by
  rw [lastSet_cons, h]
  simp

theorem lastSet_cons_set_other (j : String) (t : List Op) (k : String) (v : JSVal)
    (h : lastSet t k = none) (hne : j ≠ k) : lastSet (Op.set j v :: t) k = none := by
  rw [lastSet_cons, h]
  simp [hne]

/-- Invariant for the round-trip claim: after running any operation list,
the stored value for a key is gone, or is the last value `set` for it, or
no `set` for that key occurred and the stored value is the starting one. -/
theorem runValue (ops : List Op) :
    ∀ (c : LRUCache) (k : String),
      (run c ops).valueOf k = none ∨
      (run c ops).valueOf k = lastSet ops k ∨
      (lastSet ops k = none ∧ (run c ops).valueOf k = c.valueOf k) := by
  induction ops with
  | nil => intro c k; exact Or.inr (Or.inr ⟨rfl, rfl⟩)
  | cons op t ih =>
    intro c k
    rw [run_cons]
    rcases ih (step c op) k with h | h | ⟨h1, h2⟩
    · exact Or.inl h
    · cases hls : lastSet t k with
      | none => rw [hls] at h; exact Or.inl h
      | some w =>
        rw [hls] at h
        exact Or.inr (Or.inl (by rw [h, lastSet_cons_some op t k w hls]))
    · cases op with
      | get k' =>
        refine Or.inr (Or.inr ⟨lastSet_cons_get k' t k h1, ?_⟩)
        rw [h2]
        exact valueOf_get_state c k' k
      | set k' v =>
        by_cases hk : k' = k
        · subst hk
          refine Or.inr (Or.inl ?_)
          rw [h2, lastSet_cons_set_self t k' v h1]
          exact valueOf_set_self c k' v
        · rcases valueOf_set_other c k' k v (Ne.symm hk) with hv | hv
          · refine Or.inr (Or.inr ⟨lastSet_cons_set_other k' t k v h1 hk, ?_⟩)
            rw [h2]
            exact hv
          · exact Or.inl (by rw [h2]; exact hv)

/-! ### Helper lemmas for the time-to-live cache -/

theorem getUserWithCache_stale (m : JSMap CacheRecord) (now : Int) (fetched : JSVal)
    (userId : String) (r : CacheRecord) (hfind : m.find ("user:" ++ userId) = some r)
    (hnot : ¬ now - r.timestamp < CACHE_TTL) :
    getUserWithCache m now fetched userId =
      (fetched, (m.delete ("user:" ++ userId)).set ("user:" ++ userId) ⟨fetched, now⟩) := by
  simp only [getUserWithCache, hfind]
  rw [if_neg hnot]

theorem getUserWithCache_fresh (m : JSMap CacheRecord) (now : Int) (fetched : JSVal)
    (userId : String) (r : CacheRecord) (hfind : m.find ("user:" ++ userId) = some r)
    (hlt : now - r.timestamp < CACHE_TTL) :
    getUserWithCache m now fetched userId = (r.data, m) := by
  simp only [getUserWithCache, hfind]
  rw [if_pos hlt]

/-! ### The claims -/

/-- Claim C1 (capacity invariant): for every capacity > 0 and every
sequence of `set` calls with distinct keys on a cache constructed with
that capacity, after each `set` call (i.e. after every prefix of the
sequence) the number of entries is at most the capacity. -/
theorem C1_capacity_invariant (cap : Int) (ops : List (String × JSVal))
    (hcap : 0 < cap) (_hdistinct : (ops.map Prod.fst).Nodup) :
    ∀ pre suf : List (String × JSVal), ops = pre ++ suf →
      ((applySets (mkLRUCache cap) pre).size : Int) ≤ cap := by
  intro pre _ _
  have h0 : (((mkLRUCache cap).size : Nat) : Int) ≤ cap := by
    show ((0 : Nat) : Int) ≤ cap
    omega
  exact applySets_size pre (mkLRUCache cap) hcap h0

/-- Witness for C1 at capacity 2 and the distinct-key sequence
`a ↦ 1, b ↦ 2, c ↦ 3`. -/
theorem C1_capacity_invariant_witness :
    (0 : Int) < 2 ∧
    (([("a", JSVal.num 1), ("b", JSVal.num 2), ("c", JSVal.num 3)].map Prod.fst)).Nodup ∧
    ((applySets (mkLRUCache 2)
        [("a", JSVal.num 1), ("b", JSVal.num 2), ("c", JSVal.num 3)]).size : Int) ≤ 2 :=
  ⟨by decide, by decide,
    C1_capacity_invariant 2 [("a", JSVal.num 1), ("b", JSVal.num 2), ("c", JSVal.num 3)]
      (by decide) (by decide)
      [("a", JSVal.num 1), ("b", JSVal.num 2), ("c", JSVal.num 3)] [] (by decide)⟩

/-- Claim C2 (LRU eviction order): on a cache of capacity 2, the
sequence `set(a,1)`, `set(b,2)`, `get(a)`, `set(c,3)` evicts exactly
`b`, leaving `a` present with value 1 and `c` present with value 3. -/
theorem C2_lru_eviction_order :
    (((((mkLRUCache 2).set "a" (JSVal.num 1)).set "b" (JSVal.num 2)).get "a").2.set "c"
        (JSVal.num 3)).containsKey "a" = true ∧
    (((((mkLRUCache 2).set "a" (JSVal.num 1)).set "b" (JSVal.num 2)).get "a").2.set "c"
        (JSVal.num 3)).containsKey "c" = true ∧
    (((((mkLRUCache 2).set "a" (JSVal.num 1)).set "b" (JSVal.num 2)).get "a").2.set "c"
        (JSVal.num 3)).containsKey "b" = false ∧
    (((((mkLRUCache 2).set "a" (JSVal.num 1)).set "b" (JSVal.num 2)).get "a").2.set "c"
        (JSVal.num 3)).valueOf "a" = some (JSVal.num 1) ∧
    (((((mkLRUCache 2).set "a" (JSVal.num 1)).set "b" (JSVal.num 2)).get "a").2.set "c"
        (JSVal.num 3)).valueOf "c" = some (JSVal.num 3) := by
  decide

/-- Claim C3, counterexample: on a full cache `[a ↦ 1, b ↦ 2]` of
capacity 2, overwriting the present key `b` evicts the other entry `a`
and shrinks the size from 2 to 1, contradicting "triggers no eviction of
any other entry, and leaves size() unchanged". -/
theorem C3_overwrite_counterexample :
    (((mkLRUCache 2).set "a" (JSVal.num 1)).set "b" (JSVal.num 2)).containsKey "b" = true ∧
    (((mkLRUCache 2).set "a" (JSVal.num 1)).set "b" (JSVal.num 2)).size = 2 ∧
    ((((mkLRUCache 2).set "a" (JSVal.num 1)).set "b" (JSVal.num 2)).set "b"
        (JSVal.num 3)).size = 1 ∧
    ((((mkLRUCache 2).set "a" (JSVal.num 1)).set "b" (JSVal.num 2)).set "b"
        (JSVal.num 3)).containsKey "a" = false := by
  decide

/-- Claim C3, amended: `set(k, v2)` on a cache containing `k` always
makes a subsequent `get(k)` return `v2`; when the cache is below
capacity it triggers no eviction (size unchanged, every present key
stays present).  (At full capacity the code first evicts the
least-recently-used entry even on an overwrite, see the
counterexample.) -/
theorem C3_overwrite_amended (c : LRUCache) (k : String) (v2 : JSVal)
    (hhas : c.containsKey k = true) :
    ((c.set k v2).get k).1 = v2 ∧
    (¬ (c.size : Int) ≥ c.maxSize →
      (c.set k v2).size = c.size ∧
      ∀ k', c.containsKey k' = true → (c.set k v2).containsKey k' = true) :=
  ⟨get_fst_set c k v2, fun hlt =>
    ⟨size_set_of_has_lt c k v2 hhas hlt,
     fun k' h' => containsKey_set_of_lt c k k' v2 hhas hlt h'⟩⟩

/-- Witness for the amended C3 on the one-entry cache `[a ↦ 1]` of
capacity 3, overwriting `a` with 2. -/
theorem C3_overwrite_amended_witness :
    ((mkLRUCache 3).set "a" (JSVal.num 1)).containsKey "a" = true ∧
    ((((mkLRUCache 3).set "a" (JSVal.num 1)).set "a" (JSVal.num 2)).get "a").1 = JSVal.num 2 ∧
    (((mkLRUCache 3).set "a" (JSVal.num 1)).set "a" (JSVal.num 2)).size =
      ((mkLRUCache 3).set "a" (JSVal.num 1)).size ∧
    (((mkLRUCache 3).set "a" (JSVal.num 1)).set "a" (JSVal.num 2)).containsKey "a" = true :=
  ⟨by decide,
   (C3_overwrite_amended ((mkLRUCache 3).set "a" (JSVal.num 1)) "a" (JSVal.num 2)
      (by decide)).1,
   ((C3_overwrite_amended ((mkLRUCache 3).set "a" (JSVal.num 1)) "a" (JSVal.num 2)
      (by decide)).2 (by decide)).1,
   ((C3_overwrite_amended ((mkLRUCache 3).set "a" (JSVal.num 1)) "a" (JSVal.num 2)
      (by decide)).2 (by decide)).2 "a" (by decide)⟩

/-- Claim C4, counterexample: on a cache `[a ↦ 1, b ↦ 2]` of capacity 3,
`set(a, 9)` overwrites `a` in place (JavaScript `Map.set` keeps an
existing key's position), so `a` does not move to the most-recently-used
end — `b` stays there — contradicting "after every set of a key (new or
existing), that key occupies the most-recently-used end". -/
theorem C4_recency_counterexample :
    ((((mkLRUCache 3).set "a" (JSVal.num 1)).set "b" (JSVal.num 2)).set "a"
        (JSVal.num 9)).valueOf "a" = some (JSVal.num 9) ∧
    ((((mkLRUCache 3).set "a" (JSVal.num 1)).set "b" (JSVal.num 2)).set "a"
        (JSVal.num 9)).lastKey = some "b" ∧
    ¬ ((((mkLRUCache 3).set "a" (JSVal.num 1)).set "b" (JSVal.num 2)).set "a"
        (JSVal.num 9)).lastKey = some "a" := by
  decide

/-- Claim C4, amended: a benchmarks-variant `get` of a present key moves
it to the most-recently-used end; a `part_006`-variant `get` does so when
the stored item is truthy; a `set` of a key *not* present inserts it at
the most-recently-used end; but a `set` of an already-present key (below
capacity) leaves the whole recency order unchanged. -/
theorem C4_recency_amended (c : LRUCache) (k : String) (v : JSVal) :
    (c.cache.has k = true → ((c.get k).2).lastKey = some k) ∧
    ((c.cache.get k).truthy = true → ((c.getDoc k).2).lastKey = some k) ∧
    (c.cache.has k = false → (c.set k v).lastKey = some k) ∧
    (c.cache.has k = true → ¬ (c.size : Int) ≥ c.maxSize →
      (c.set k v).keyOrder = c.keyOrder) :=
  ⟨lastKey_get_of_has c k, lastKey_getDoc_of_truthy c k, lastKey_set_of_not_has c k v,
   fun hhas hlt => keyOrder_set_of_has_lt c k v hhas hlt⟩

/-- Witness for the amended C4 on the cache `[a ↦ 1, b ↦ 2]` of
capacity 3: reading `a` (either variant) moves it to the end, setting the
fresh key `c` appends it at the end, and overwriting `a` keeps the order
`[a, b]`. -/
theorem C4_recency_amended_witness :
    (((((mkLRUCache 3).set "a" (JSVal.num 1)).set "b" (JSVal.num 2)).get "a").2).lastKey =
      some "a" ∧
    (((((mkLRUCache 3).set "a" (JSVal.num 1)).set "b" (JSVal.num 2)).getDoc "a").2).lastKey =
      some "a" ∧
    ((((mkLRUCache 3).set "a" (JSVal.num 1)).set "b" (JSVal.num 2)).set "c"
        (JSVal.num 9)).lastKey = some "c" ∧
    ((((mkLRUCache 3).set "a" (JSVal.num 1)).set "b" (JSVal.num 2)).set "a"
        (JSVal.num 9)).keyOrder =
      (((mkLRUCache 3).set "a" (JSVal.num 1)).set "b" (JSVal.num 2)).keyOrder :=
  ⟨(C4_recency_amended (((mkLRUCache 3).set "a" (JSVal.num 1)).set "b" (JSVal.num 2)) "a"
      (JSVal.num 9)).1 (by decide),
   (C4_recency_amended (((mkLRUCache 3).set "a" (JSVal.num 1)).set "b" (JSVal.num 2)) "a"
      (JSVal.num 9)).2.1 (by decide),
   (C4_recency_amended (((mkLRUCache 3).set "a" (JSVal.num 1)).set "b" (JSVal.num 2)) "c"
      (JSVal.num 9)).2.2.1 (by decide),
   (C4_recency_amended (((mkLRUCache 3).set "a" (JSVal.num 1)).set "b" (JSVal.num 2)) "a"
      (JSVal.num 9)).2.2.2 (by decide) (by decide)⟩

/-- Claim C5, counterexample: the repository's only expiry logic
(`getUserWithCache`) does not make an expired key read as absent.  With
the entry `user:1 ↦ { data: "d", timestamp: 0 }` and the current time
300000 (= `CACHE_TTL`, so the entry is expired), the lookup returns the
freshly fetched value — not an absent sentinel — and afterwards the key
is still contained (re-inserted with a fresh timestamp). -/
theorem C5_ttl_counterexample :
    (getUserWithCache (JSMap.empty.set "user:1" ⟨JSVal.str "d", 0⟩) 300000
        (JSVal.str "fresh") "1").1 = JSVal.str "fresh" ∧
    ((getUserWithCache (JSMap.empty.set "user:1" ⟨JSVal.str "d", 0⟩) 300000
        (JSVal.str "fresh") "1").2).has "user:1" = true ∧
    JSVal.str "fresh" ≠ JSVal.null ∧ JSVal.str "fresh" ≠ JSVal.undef := by
  decide

/-- Claim C5, amended: for a cached entry, if the current time has
reached `timestamp + CACHE_TTL` the lookup never returns the expired
cached data — it removes the stale entry, returns the freshly fetched
value and re-caches it stamped with the current time (so the key stays
contained); if the entry is still fresh the cached data is returned and
the cache is unchanged. -/
theorem C5_ttl_amended (m : JSMap CacheRecord) (now : Int) (fetched : JSVal)
    (userId : String) (r : CacheRecord)
    (hfind : m.find ("user:" ++ userId) = some r) :
    (CACHE_TTL ≤ now - r.timestamp →
      (getUserWithCache m now fetched userId).1 = fetched ∧
      ((getUserWithCache m now fetched userId).2).find ("user:" ++ userId) =
        some ⟨fetched, now⟩) ∧
    (now - r.timestamp < CACHE_TTL →
      getUserWithCache m now fetched userId = (r.data, m)) := by
  constructor
  · intro hexp
    have hnot : ¬ now - r.timestamp < CACHE_TTL := not_lt.mpr hexp
    rw [getUserWithCache_stale m now fetched userId r hfind hnot]
    refine ⟨rfl, ?_⟩
    show mapFind (mapSet (mapDelete m.entries ("user:" ++ userId)) ("user:" ++ userId)
      (⟨fetched, now⟩ : CacheRecord)) ("user:" ++ userId) = some ⟨fetched, now⟩
    exact mapFind_set_self _ _ _
  · intro hlt
    exact getUserWithCache_fresh m now fetched userId r hfind hlt

/-- Witness for the amended C5: the expired branch at
`user:1 ↦ { data: "d", timestamp: 0 }` and time 300000. -/
theorem C5_ttl_amended_witness :
    (JSMap.empty.set ("user:" ++ "1") (⟨JSVal.str "d", 0⟩ : CacheRecord)).find
      ("user:" ++ "1") = some ⟨JSVal.str "d", 0⟩ ∧
    (getUserWithCache (JSMap.empty.set ("user:" ++ "1") ⟨JSVal.str "d", 0⟩) 300000
        (JSVal.str "fresh") "1").1 = JSVal.str "fresh" ∧
    ((getUserWithCache (JSMap.empty.set ("user:" ++ "1") ⟨JSVal.str "d", 0⟩) 300000
        (JSVal.str "fresh") "1").2).find ("user:" ++ "1") =
      some ⟨JSVal.str "fresh", 300000⟩ :=
  ⟨by decide,
   (C5_ttl_amended (JSMap.empty.set ("user:" ++ "1") ⟨JSVal.str "d", 0⟩) 300000
      (JSVal.str "fresh") "1" ⟨JSVal.str "d", 0⟩ (by decide)).1 (by decide) |>.1,
   (C5_ttl_amended (JSMap.empty.set ("user:" ++ "1") ⟨JSVal.str "d", 0⟩) 300000
      (JSVal.str "fresh") "1" ⟨JSVal.str "d", 0⟩ (by decide)).1 (by decide) |>.2⟩

/-- Claim C6, counterexample: per the spec comparator, construction with
capacity 0 should fail with `InvalidConfiguration`, but the source
constructor performs no validation: `new LRUCache(0)` yields a working
cache (it even stores an entry), so construction with a non-positive
capacity does not fail. -/
theorem C6_construction_counterexample :
    specConstruct 0 = Except.error "InvalidConfiguration" ∧
    mkLRUCache 0 = { maxSize := 0, cache := JSMap.empty } ∧
    (((mkLRUCache 0).set "a" (JSVal.num 1)).get "a").1 = JSVal.num 1 ∧
    ((mkLRUCache 0).set "a" (JSVal.num 1)).size = 1 := by
  refine ⟨rfl, rfl, by decide, by decide⟩

/-- Claim C6, amended: construction never fails — for every capacity
(positive or not) the constructor just stores `maxSize` and an empty
map, and the resulting cache accepts entries; no `InvalidConfiguration`
error exists in the code. -/
theorem C6_construction_amended (capacity : Int) (k : String) (v : JSVal) :
    (mkLRUCache capacity).maxSize = capacity ∧
    (mkLRUCache capacity).size = 0 ∧
    (((mkLRUCache capacity).set k v).get k).1 = v :=
  ⟨rfl, rfl, get_fst_set (mkLRUCache capacity) k v⟩

/-- Claim C7 (FIFO tie-break): on a cache of capacity 1, `set(a,1)` then
`set(b,2)` with no intervening `get` evicts `a`: `get(a)` returns the
absent sentinel and `get(b)` returns 2. -/
theorem C7_fifo_tie_break :
    (((mkLRUCache 1).set "a" (JSVal.num 1)).set "b" (JSVal.num 2)).containsKey "a" = false ∧
    ((((mkLRUCache 1).set "a" (JSVal.num 1)).set "b" (JSVal.num 2)).get "a").1 =
      JSVal.null ∧
    (((((mkLRUCache 1).set "a" (JSVal.num 1)).set "b" (JSVal.num 2)).get "a").2.get "b").1 =
      JSVal.num 2 := by
  decide

/-- Claim C8 (round-trip): starting from a freshly constructed cache,
after any sequence of `get`/`set` operations, every key still contained
in the cache reads back exactly the value of the most recent `set` for
that key (an entry can only be absent through eviction; the code has no
expiry). -/
theorem C8_round_trip (cap : Int) (ops : List Op) (k : String)
    (h : (run (mkLRUCache cap) ops).containsKey k = true) :
    lastSet ops k = some (((run (mkLRUCache cap) ops).get k).1) := by
  obtain ⟨w, hw⟩ := find_of_has (run (mkLRUCache cap) ops).cache k h
  have hw' : (run (mkLRUCache cap) ops).valueOf k = some w := hw
  have hfst : ((run (mkLRUCache cap) ops).get k).1 = w :=
    get_fst_of_find (run (mkLRUCache cap) ops) k w hw
  rw [hfst]
  rcases runValue ops (mkLRUCache cap) k with hv | hv | ⟨_, hv⟩
  · rw [hw'] at hv
    exact Option.noConfusion hv
  · rw [hw'] at hv
    exact hv.symm
  · rw [hw'] at hv
    have hnil : (mkLRUCache cap).valueOf k = none := rfl
    rw [hnil] at hv
    exact Option.noConfusion hv

/-- Witness for C8 at capacity 2 and the history
`set(a,1)`, `get(a)`, `set(b,2)`. -/
theorem C8_round_trip_witness :
    (run (mkLRUCache 2)
        [Op.set "a" (JSVal.num 1), Op.get "a", Op.set "b" (JSVal.num 2)]).containsKey "a" =
      true ∧
    lastSet [Op.set "a" (JSVal.num 1), Op.get "a", Op.set "b" (JSVal.num 2)] "a" =
      some (((run (mkLRUCache 2)
        [Op.set "a" (JSVal.num 1), Op.get "a", Op.set "b" (JSVal.num 2)]).get "a").1) :=
  ⟨by decide,
   C8_round_trip 2 [Op.set "a" (JSVal.num 1), Op.get "a", Op.set "b" (JSVal.num 2)] "a"
     (by decide)⟩

/-- Claim C9 (miss is side-effect free): for every cache state and every
key not present, `get` returns the absent sentinel (`null` in the
benchmarks variant, `undefined` in the `part_006` variant) and the whole
cache state — entries and recency order — is unchanged. -/
theorem C9_miss_no_side_effect (c : LRUCache) (k : String)
    (h : c.containsKey k = false) :
    c.get k = (JSVal.null, c) ∧ c.getDoc k = (JSVal.undef, c) := by
  have h' : c.cache.has k = false := h
  refine ⟨get_of_not_has c k h', ?_⟩
  have hg := jsget_of_not_has c.cache k h'
  have hd := getDoc_of_falsy c k (by rw [hg]; rfl)
  rw [hg] at hd
  exact hd

/-- Witness for C9 on a freshly constructed cache of capacity 2 and the
never-inserted key `x`. -/
theorem C9_miss_no_side_effect_witness :
    (mkLRUCache 2).containsKey "x" = false ∧
    ((mkLRUCache 2).get "x" = (JSVal.null, mkLRUCache 2) ∧
      (mkLRUCache 2).getDoc "x" = (JSVal.undef, mkLRUCache 2)) :=
  ⟨by decide, C9_miss_no_side_effect (mkLRUCache 2) "x" (by decide)⟩

/-- Claim C10, counterexample: in the `part_006` variant a stored falsy
value is *not* the same result as a miss — after `set(k, 0)`, `get(k)`
returns `0`, while a never-inserted key reads as `undefined`, and
`0 ≠ undefined` — so the stored falsy value is distinguishable from a
miss by its returned value. -/
theorem C10_falsy_counterexample :
    (((mkLRUCache 2).set "k" (JSVal.num 0)).getDoc "k").1 = JSVal.num 0 ∧
    ((mkLRUCache 2).getDoc "k").1 = JSVal.undef ∧
    JSVal.num 0 ≠ JSVal.undef := by
  decide

/-- Claim C10, amended: in the benchmarks variant a stored `null` reads
back as `null`, the variant's own miss sentinel, so it is
indistinguishable from a miss by the returned value; in the `part_006`
variant a stored falsy value `v` is returned as `v` itself with no
refresh and no state change (the same frame behaviour as a miss, and
falsy like a miss, so truthiness checks cannot tell — but the raw result
equals the miss result `undefined` only when `v` is `undefined`). -/
theorem C10_falsy_amended (c : LRUCache) (k : String) (v : JSVal)
    (hfalsy : v.truthy = false) :
    ((c.set k JSVal.null).get k).1 = JSVal.null ∧
    (c.set k v).getDoc k = (v, c.set k v) := by
  refine ⟨get_fst_set c k JSVal.null, ?_⟩
  have hg : (c.set k v).cache.get k = v :=
    jsget_of_find (c.set k v).cache k v (valueOf_set_self c k v)
  have hd := getDoc_of_falsy (c.set k v) k (by rw [hg]; exact hfalsy)
  rw [hg] at hd
  exact hd

/-- Witness for the amended C10 with the falsy value `0` on a cache of
capacity 2. -/
theorem C10_falsy_amended_witness :
    (JSVal.num 0).truthy = false ∧
    ((((mkLRUCache 2).set "k" JSVal.null).get "k").1 = JSVal.null ∧
      ((mkLRUCache 2).set "k" (JSVal.num 0)).getDoc "k" =
        (JSVal.num 0, (mkLRUCache 2).set "k" (JSVal.num 0))) :=
  ⟨by decide, C10_falsy_amended (mkLRUCache 2) "k" (JSVal.num 0) (by decide)⟩
